import Mathlib

/-!
Shallow embedding of the TTN Ulm particulate-matter sensor firmware
(ttnulmdust.ino) and verification of its specification claims.

Modelling conventions:
* floats are embedded as rationals (the code only compares, adds and halves
  sample values, so field behaviour is faithfully captured);
* machine integers are embedded as Nat / Int with explicit reduction
  modulo 2^16 or 2^32 exactly where the C code wraps or converts;
* an out-of-bounds array access has no defined result and is embedded as
  an Option-valued lookup returning none;
* the in-place mutation of arrays is embedded as explicit state passing:
  each C function maps the incoming array contents to the outgoing ones.
-/

namespace TtnUlmDust

/-- Embedding of the watchdog interrupt handler ISR(WDT_vect): the body of
the handler as a function on the current value of the uint16 counter
iWakeCntr.  The C code tests iWakeCntr > UINT16_MAX-1 (that is, 65534) and
assigns 0 in that case, otherwise increments. -/
def ISR_WDT_vect (iWakeCntr : Nat) : Nat :=
  if 65534 < iWakeCntr then 0 else iWakeCntr + 1

/-- Number of inversions of a list: for each element, how many strictly
smaller elements appear after it.  Used as the termination measure for the
bubble-sort outer loop. -/
def invCount : List ℚ → Nat
  | [] => 0
  | a :: l => l.countP (fun b => decide (b < a)) + invCount l

/-- One inner pass of bubbleSort (the for-loop over p = 1 .. len-1 with the
swap of adjacent out-of-order elements), together with the value of newn
after the pass.  The argument p is the position of the first comparison of
the remaining sublist; newn is the position of the last swap performed, or
1 when no swap happens (matching the initialisation newn = 1 in the C
code). -/
def bpassP : Nat → List ℚ → List ℚ × Nat
  | _, [] => ([], 1)
  | _, [a] => ([a], 1)
  | p, a :: b :: l =>
    if b < a then
      (b :: (bpassP (p + 1) (a :: l)).1, max p (bpassP (p + 1) (a :: l)).2)
    else
      (a :: (bpassP (p + 1) (b :: l)).1, (bpassP (p + 1) (b :: l)).2)
termination_by _ l => l.length
decreasing_by all_goals simp [List.length_cons]

theorem bpass_perm_aux : ∀ (n p : Nat) (l : List ℚ), l.length ≤ n →
    List.Perm (bpassP p l).1 l := by
  intro n
  induction n with
  | zero =>
    intro p l hl
    match l with
    | [] => simp [bpassP]
    | a :: t => simp at hl
  | succ n ih =>
    intro p l hl
    match l with
    | [] => simp [bpassP]
    | [a] => simp [bpassP]
    | a :: b :: t =>
      by_cases hba : b < a
      · simp only [bpassP, if_pos hba]
        have h1 : (a :: t).length ≤ n := by simp at hl ⊢; omega
        exact ((ih (p + 1) (a :: t) h1).cons b).trans (List.Perm.swap a b t)
      · simp only [bpassP, if_neg hba]
        have h1 : (b :: t).length ≤ n := by simp at hl ⊢; omega
        exact (ih (p + 1) (b :: t) h1).cons a

theorem bpass_perm (p : Nat) (l : List ℚ) : List.Perm (bpassP p l).1 l :=
  bpass_perm_aux l.length p l le_rfl

theorem bpass_newn_pos_aux : ∀ (n p : Nat) (l : List ℚ), l.length ≤ n →
    1 ≤ (bpassP p l).2 := by
  intro n
  induction n with
  | zero =>
    intro p l hl
    match l with
    | [] => simp [bpassP]
    | a :: t => simp at hl
  | succ n ih =>
    intro p l hl
    match l with
    | [] => simp [bpassP]
    | [a] => simp [bpassP]
    | a :: b :: t =>
      by_cases hba : b < a
      · simp only [bpassP, if_pos hba]
        have h1 : (a :: t).length ≤ n := by simp at hl ⊢; omega
        have := ih (p + 1) (a :: t) h1
        omega
      · simp only [bpassP, if_neg hba]
        have h1 : (b :: t).length ≤ n := by simp at hl ⊢; omega
        exact ih (p + 1) (b :: t) h1

theorem bpass_newn_pos (p : Nat) (l : List ℚ) : 1 ≤ (bpassP p l).2 :=
  bpass_newn_pos_aux l.length p l le_rfl

/-- Each pass either performs no swap at all (and then returns the list
unchanged with newn = 1) or strictly decreases the number of
inversions. -/
theorem bpass_progress_aux : ∀ (n p : Nat) (l : List ℚ), l.length ≤ n →
    ((bpassP p l).1 = l ∧ (bpassP p l).2 = 1) ∨
      invCount (bpassP p l).1 < invCount l := by
  intro n
  induction n with
  | zero =>
    intro p l hl
    match l with
    | [] => left; simp [bpassP]
    | a :: t => simp at hl
  | succ n ih =>
    intro p l hl
    match l with
    | [] => left; simp [bpassP]
    | [a] => left; simp [bpassP]
    | a :: b :: t =>
      by_cases hba : b < a
      · right
        have h1 : (a :: t).length ≤ n := by simp at hl ⊢; omega
        have hperm := bpass_perm (p + 1) (a :: t)
        have hle : invCount (bpassP (p + 1) (a :: t)).1 ≤ invCount (a :: t) := by
          rcases ih (p + 1) (a :: t) h1 with h | h
          · rw [h.1]
          · exact le_of_lt h
        simp only [bpassP, if_pos hba]
        have hcb := hperm.countP_eq (fun x => decide (x < b))
        simp only [invCount, List.countP_cons] at *
        have hnab : ¬ a < b := not_lt_of_lt hba
        simp only [decide_eq_true_eq, hba, hnab, if_true, if_false] at *
        omega
      · have h1 : (b :: t).length ≤ n := by simp at hl ⊢; omega
        rcases ih (p + 1) (b :: t) h1 with h | h
        · left
          simp only [bpassP, if_neg hba]
          exact ⟨by rw [h.1], h.2⟩
        · right
          have hperm := bpass_perm (p + 1) (b :: t)
          simp only [bpassP, if_neg hba]
          have hca := hperm.countP_eq (fun x => decide (x < a))
          simp only [invCount, List.countP_cons] at *
          omega

theorem bpass_progress (p : Nat) (l : List ℚ) :
    ((bpassP p l).1 = l ∧ (bpassP p l).2 = 1) ∨
      invCount (bpassP p l).1 < invCount l :=
  bpass_progress_aux l.length p l le_rfl

/-- Embedding of bubbleSort's outer do-while loop: run one pass (starting
the position counter at p = 1, newn initialised to 1 inside the pass) and
repeat while the resulting n = newn satisfies n > 1.  Termination is by the
strictly decreasing inversion count. -/
def bsLoop (A : List ℚ) : List ℚ :=
  if h : 1 < (bpassP 1 A).2 then bsLoop (bpassP 1 A).1 else (bpassP 1 A).1
termination_by invCount A
decreasing_by
  rcases bpass_progress 1 A with h2 | h2
  · rw [h2.2] at h; omega
  · exact h2

/-- Embedding of the C function bubbleSort(A, len): the len argument is the
length of the list, as at every call site in the program. -/
def bubbleSort (A : List ℚ) : List ℚ := bsLoop A

/-- The same do-while loop with an explicit iteration budget, mirroring the
source loop literally: none means the budget was exhausted before the exit
condition n <= 1 was reached. -/
def bsLoopFuel : Nat → List ℚ → Option (List ℚ)
  | 0, _ => none
  | n + 1, A =>
    if 1 < (bpassP 1 A).2 then bsLoopFuel n (bpassP 1 A).1
    else some (bpassP 1 A).1

/-- A pass started at position 2 or later that reports newn = 1 performed
no swap at all: it returns its input unchanged, and that input is already
sorted. -/
theorem bpass_fix_aux : ∀ (n q : Nat), 2 ≤ q → ∀ l : List ℚ, l.length ≤ n →
    (bpassP q l).2 = 1 → (bpassP q l).1 = l ∧ List.Sorted (· ≤ ·) l := by
  intro n
  induction n with
  | zero =>
    intro q hq l hl
    match l with
    | [] => intro _; simp [bpassP]
    | a :: t => simp at hl
  | succ n ih =>
    intro q hq l hl
    match l with
    | [] => intro _; simp [bpassP]
    | [a] => intro _; simp [bpassP]
    | a :: b :: t =>
      by_cases hba : b < a
      · simp only [bpassP, if_pos hba]
        intro hmax
        have : q ≤ max q (bpassP (q + 1) (a :: t)).2 := Nat.le_max_left _ _
        omega
      · simp only [bpassP, if_neg hba]
        intro h2
        have h1 : (b :: t).length ≤ n := by simp at hl ⊢; omega
        obtain ⟨heq, hsort⟩ := ih (q + 1) (by omega) (b :: t) h1 h2
        refine ⟨by rw [heq], ?_⟩
        rw [List.sorted_cons]
        refine ⟨?_, hsort⟩
        intro x hx
        have hab : a ≤ b := not_lt.mp hba
        rcases List.mem_cons.mp hx with rfl | hxt
        · exact hab
        · exact hab.trans ((List.sorted_cons.mp hsort).1 x hxt)

theorem bpass_fix (q : Nat) (hq : 2 ≤ q) (l : List ℚ)
    (h : (bpassP q l).2 = 1) :
    (bpassP q l).1 = l ∧ List.Sorted (· ≤ ·) l :=
  bpass_fix_aux l.length q hq l le_rfl h

/-- When the first pass of an iteration reports newn = 1 the resulting
list is sorted (either no swap happened at all, or the only swap was at
position 1 and everything to its right was already in order). -/
theorem bpass_exit_sorted (l : List ℚ) (h : (bpassP 1 l).2 = 1) :
    List.Sorted (· ≤ ·) (bpassP 1 l).1 := by
  match l with
  | [] => simp [bpassP]
  | [a] => simp [bpassP]
  | a :: b :: t =>
    by_cases hba : b < a
    · simp only [bpassP, if_pos hba] at h ⊢
      have hpos := bpass_newn_pos 2 (a :: t)
      rw [Nat.max_eq_right hpos] at h
      have h2 : (bpassP 2 (a :: t)).2 = 1 := h
      obtain ⟨heq, hsort⟩ := bpass_fix 2 le_rfl (a :: t) h2
      rw [heq]
      rw [List.sorted_cons]
      refine ⟨?_, hsort⟩
      intro x hx
      rcases List.mem_cons.mp hx with rfl | hxt
      · exact hba.le
      · exact hba.le.trans ((List.sorted_cons.mp hsort).1 x hxt)
    · simp only [bpassP, if_neg hba] at h ⊢
      obtain ⟨heq, hsort⟩ := bpass_fix 2 le_rfl (b :: t) h
      rw [heq]
      rw [List.sorted_cons]
      refine ⟨?_, hsort⟩
      intro x hx
      have hab : a ≤ b := not_lt.mp hba
      rcases List.mem_cons.mp hx with rfl | hxt
      · exact hab
      · exact hab.trans ((List.sorted_cons.mp hsort).1 x hxt)

theorem bsLoop_perm_aux : ∀ (n : Nat) (A : List ℚ), invCount A ≤ n →
    List.Perm (bsLoop A) A := by
  intro n
  induction n with
  | zero =>
    intro A hA
    rw [bsLoop]
    split
    · rename_i h
      rcases bpass_progress 1 A with h2 | h2
      · rw [h2.2] at h; omega
      · omega
    · exact bpass_perm 1 A
  | succ n ih =>
    intro A hA
    rw [bsLoop]
    split
    · rename_i h
      rcases bpass_progress 1 A with h2 | h2
      · rw [h2.2] at h; omega
      · exact (ih (bpassP 1 A).1 (by omega)).trans (bpass_perm 1 A)
    · exact bpass_perm 1 A

theorem bsLoop_perm (A : List ℚ) : List.Perm (bsLoop A) A :=
  bsLoop_perm_aux (invCount A) A le_rfl

theorem bsLoop_sorted_aux : ∀ (n : Nat) (A : List ℚ), invCount A ≤ n →
    List.Sorted (· ≤ ·) (bsLoop A) := by
  intro n
  induction n with
  | zero =>
    intro A hA
    rw [bsLoop]
    split
    · rename_i h
      rcases bpass_progress 1 A with h2 | h2
      · rw [h2.2] at h; omega
      · omega
    · rename_i h
      have hpos := bpass_newn_pos 1 A
      exact bpass_exit_sorted A (by omega)
  | succ n ih =>
    intro A hA
    rw [bsLoop]
    split
    · rename_i h
      rcases bpass_progress 1 A with h2 | h2
      · rw [h2.2] at h; omega
      · exact ih (bpassP 1 A).1 (by omega)
    · rename_i h
      have hpos := bpass_newn_pos 1 A
      exact bpass_exit_sorted A (by omega)

theorem bsLoop_sorted (A : List ℚ) : List.Sorted (· ≤ ·) (bsLoop A) :=
  bsLoop_sorted_aux (invCount A) A le_rfl

/-- The embedded bubbleSort computes the unique ascending reordering of its
input (identified with Mathlib's insertion sort). -/
theorem bubbleSort_eq_insertionSort (l : List ℚ) :
    bubbleSort l = List.insertionSort (· ≤ ·) l :=
  List.eq_of_perm_of_sorted
    ((bsLoop_perm l).trans (List.perm_insertionSort (· ≤ ·) l).symm)
    (bsLoop_sorted l)
    (List.sorted_insertionSort (· ≤ ·) l)

theorem bsLoopFuel_mono : ∀ (n m : Nat) (A : List ℚ) (x : List ℚ), n ≤ m →
    bsLoopFuel n A = some x → bsLoopFuel m A = some x := by
  intro n
  induction n with
  | zero => intro m A x _ hx; simp [bsLoopFuel] at hx
  | succ k ih =>
    intro m A x hnm hx
    match m with
    | 0 => omega
    | m' + 1 =>
      simp only [bsLoopFuel] at hx ⊢
      split at hx
      · rename_i h
        rw [if_pos h]
        exact ih m' (bpassP 1 A).1 x (by omega) hx
      · rename_i h
        rw [if_neg h]
        exact hx

theorem bsLoopFuel_eq_aux : ∀ (n : Nat) (A : List ℚ), invCount A ≤ n →
    bsLoopFuel (n + 1) A = some (bsLoop A) := by
  intro n
  induction n with
  | zero =>
    intro A hA
    rw [bsLoop]
    simp only [bsLoopFuel]
    split
    · rename_i h
      rcases bpass_progress 1 A with h2 | h2
      · rw [h2.2] at h; omega
      · omega
    · rfl
  | succ n ih =>
    intro A hA
    rw [bsLoop]
    simp only [bsLoopFuel]
    split
    · rename_i h
      rcases bpass_progress 1 A with h2 | h2
      · rw [h2.2] at h; omega
      · exact ih (bpassP 1 A).1 (by omega)
    · rfl

/-- An int-indexed array read: a negative or past-the-end index is an
out-of-bounds access and therefore has no defined value. -/
def getI (l : List ℚ) (i : ℤ) : Option ℚ :=
  if 0 ≤ i then l[i.toNat]? else none

/-- The tail of the C median function: the test (m & 0x01) == 0 selects the
even branch (sorted[(m / 2) - 1] + sorted[m / 2]) / 2, the odd branch
returns sorted[m / 2].  The indices are C int expressions, so for m = 0 the
even branch reads index -1. -/
def midRule (m : Nat) (sorted : List ℚ) : Option ℚ :=
  if m &&& 1 = 0 then
    match getI sorted ((m : ℤ) / 2 - 1), getI sorted ((m : ℤ) / 2) with
    | some x, some y => some ((x + y) / 2)
    | _, _ => none
  else
    getI sorted ((m : ℤ) / 2)

/-- One iteration of the copy loop in median: sorted[i] = samples[i].  The
state is the pair (samples, sorted); only the sorted component is
written. -/
def copyStep (st : List ℚ × List ℚ) (i : Nat) : List ℚ × List ℚ :=
  (st.1, st.2.set i (st.1.getD i 0))

/-- The whole copy loop: for i = 0 .. m-1, sorted[i] = samples[i]. -/
def copyPhase (st : List ℚ × List ℚ) : List ℚ × List ℚ :=
  (List.range st.1.length).foldl copyStep st

/-- Embedding of the C function median(samples, m), with m the number of
stored samples (every call site passes the full array length).  The result
pair holds the returned value and the final contents of the caller's
samples array.  The function copies samples into the local array sorted
(initially arbitrary, modelled as zeros), sorts the copy in place with
bubbleSort, and applies the even/odd midpoint rule. -/
def medianCall (samples : List ℚ) : Option ℚ × List ℚ :=
  (midRule samples.length
      (bubbleSort (copyPhase (samples, List.replicate samples.length 0)).2),
   (copyPhase (samples, List.replicate samples.length 0)).1)

/-- The value computed by median(samples, m). -/
def median (samples : List ℚ) : Option ℚ := (medianCall samples).1

/-- Modelled from the spec (AggregatedReading): sort ascending; if the
count is odd return the middle element, if even return the arithmetic mean
of the two middle elements.  Stated with Mathlib's insertion sort as the
reference sort. -/
def medianSpec (l : List ℚ) : ℚ :=
  if l.length % 2 = 1 then (List.insertionSort (· ≤ ·) l).getD (l.length / 2) 0
  else
    ((List.insertionSort (· ≤ ·) l).getD (l.length / 2 - 1) 0 +
      (List.insertionSort (· ≤ ·) l).getD (l.length / 2) 0) / 2

theorem foldl_copyStep_fst : ∀ (l : List Nat) (st : List ℚ × List ℚ),
    (l.foldl copyStep st).1 = st.1 := by
  intro l
  induction l with
  | nil => intro st; rfl
  | cons x t ih => intro st; rw [List.foldl_cons]; exact ih (copyStep st x)

theorem copyAux : ∀ (k i : Nat) (s d : List ℚ), d.length = s.length →
    i + k = s.length → (∀ j, j < i → d[j]? = s[j]?) →
    ((List.range' i k).foldl copyStep (s, d)).2 = s := by
  intro k
  induction k with
  | zero =>
    intro i s d hlen hik hpre
    simp only [List.range', List.foldl_nil]
    apply List.ext_getElem?
    intro j
    by_cases hj : j < i
    · exact hpre j hj
    · rw [List.getElem?_eq_none (by omega), List.getElem?_eq_none (by omega)]
  | succ k ih =>
    intro i s d hlen hik hpre
    rw [List.range'_succ, List.foldl_cons]
    have hstep : copyStep (s, d) i = (s, d.set i (s.getD i 0)) := rfl
    rw [hstep]
    apply ih (i + 1) s (d.set i (s.getD i 0)) (by simp [hlen]) (by omega)
    intro j hj
    by_cases hji : j < i
    · rw [List.getElem?_set_ne (by omega)]
      exact hpre j hji
    · have hj' : j = i := by omega
      subst hj'
      have hdi : j < d.length := by omega
      have hsi : j < s.length := by omega
      rw [List.getElem?_set_self hdi, List.getElem?_eq_getElem hsi,
        List.getD_eq_getElem?_getD, List.getElem?_eq_getElem hsi]
      rfl

theorem copyPhase_snd (s d : List ℚ) (hd : d.length = s.length) :
    (copyPhase (s, d)).2 = s := by
  unfold copyPhase
  rw [List.range_eq_range']
  exact copyAux s.length 0 s d hd (by omega) (fun j hj => absurd hj (Nat.not_lt_zero j))

/-- The value of median depends only on the length of the input and its
unique ascending reordering. -/
theorem median_eq_mid (l : List ℚ) :
    median l = midRule l.length (List.insertionSort (· ≤ ·) l) := by
  unfold median medianCall
  rw [copyPhase_snd l _ (by simp), bubbleSort_eq_insertionSort]

theorem median_eq_spec (l : List ℚ) (h : l ≠ []) :
    median l = some (medianSpec l) := by
  have hpos : 0 < l.length := List.length_pos.mpr h
  have hslen : (List.insertionSort (· ≤ ·) l).length = l.length :=
    (List.perm_insertionSort (· ≤ ·) l).length_eq
  rw [median_eq_mid]
  unfold midRule medianSpec
  rw [Nat.and_one_is_mod]
  by_cases hpar : l.length % 2 = 0
  · rw [if_pos hpar, if_neg (by omega)]
    have hge2 : 2 ≤ l.length := by omega
    have h1 : getI (List.insertionSort (· ≤ ·) l) ((l.length : ℤ) / 2 - 1) =
        some ((List.insertionSort (· ≤ ·) l).getD (l.length / 2 - 1) 0) := by
      unfold getI
      rw [if_pos (by omega)]
      have ht : ((l.length : ℤ) / 2 - 1).toNat = l.length / 2 - 1 := by omega
      rw [ht, List.getD_eq_getElem?_getD]
      have hidx : l.length / 2 - 1 < (List.insertionSort (· ≤ ·) l).length := by omega
      rw [List.getElem?_eq_getElem hidx]
      rfl
    have h2 : getI (List.insertionSort (· ≤ ·) l) ((l.length : ℤ) / 2) =
        some ((List.insertionSort (· ≤ ·) l).getD (l.length / 2) 0) := by
      unfold getI
      rw [if_pos (by omega)]
      have ht : ((l.length : ℤ) / 2).toNat = l.length / 2 := by omega
      rw [ht, List.getD_eq_getElem?_getD]
      have hidx : l.length / 2 < (List.insertionSort (· ≤ ·) l).length := by omega
      rw [List.getElem?_eq_getElem hidx]
      rfl
    rw [h1, h2]
  · rw [if_neg hpar, if_pos (by omega)]
    have h3 : getI (List.insertionSort (· ≤ ·) l) ((l.length : ℤ) / 2) =
        some ((List.insertionSort (· ≤ ·) l).getD (l.length / 2) 0) := by
      unfold getI
      rw [if_pos (by omega)]
      have ht : ((l.length : ℤ) / 2).toNat = l.length / 2 := by omega
      rw [ht, List.getD_eq_getElem?_getD]
      have hidx : l.length / 2 < (List.insertionSort (· ≤ ·) l).length := by omega
      rw [List.getElem?_eq_getElem hidx]
      rfl
    rw [h3]

/-- The median is invariant under permutation of the sample multiset. -/
theorem median_perm (l l' : List ℚ) (hp : List.Perm l l') :
    median l = median l' := by
  have hsort : List.insertionSort (· ≤ ·) l = List.insertionSort (· ≤ ·) l' :=
    List.eq_of_perm_of_sorted
      ((List.perm_insertionSort (· ≤ ·) l).trans
        (hp.trans (List.perm_insertionSort (· ≤ ·) l').symm))
      (List.sorted_insertionSort (· ≤ ·) l)
      (List.sorted_insertionSort (· ≤ ·) l')
  rw [median_eq_mid, median_eq_mid, hsort, hp.length_eq]

/-- Round-half-away-from-zero, the behaviour of the C round() function
applied to the scaled median. -/
def roundC (x : ℚ) : ℤ :=
  if 0 ≤ x then ⌊x + 1 / 2⌋ else ⌈x - 1 / 2⌉

/-- Conversion of an integer value to the int16_t range, reducing modulo
2^16 into [-32768, 32767] (the wrap applied by the narrowing assignment to
an int16_t variable). -/
def toInt16 (n : ℤ) : ℤ := (n + 32768) % 65536 - 32768

/-- The Arduino highByte macro on a 16-bit value: the second-lowest byte,
as the unsigned byte stored into the payload. -/
def highByte (x : ℤ) : ℤ := x % 65536 / 256

/-- The Arduino lowByte macro: the lowest byte, as the unsigned byte
stored into the payload. -/
def lowByte (x : ℤ) : ℤ := x % 256

/-- The fixed-point encoder applied to one float channel value: scale by
100, round half away from zero, narrow to int16_t. -/
def encode (x : ℚ) : ℤ := toInt16 (roundC (x * 100))

/-- Modelled from the spec (testable properties): the symmetric decoder
defined for testing, recovering the physical value from the transmitted
field. -/
def decode (n : ℤ) : ℚ := (n : ℚ) / 100

/-- Modelled from the spec: round(x, 2), rounding half away from zero at
two decimal digits. -/
def round2 (x : ℚ) : ℚ := (roundC (x * 100) : ℚ) / 100

/-- Result of one pass of loop(): the payload handed to ttn.sendBytes, the
final contents of the two global sample arrays, and whether control
reached the sleep section at the end of the body. -/
structure CycleOut where
  payload : List ℤ
  p25arr : List ℚ
  p10arr : List ℚ
  reachedSleep : Bool

/-- One iteration of the sampling for-loop: a successful read stores the
pair into slot i of both global arrays, a failed read leaves both arrays
untouched. -/
def sampleStep (st : List ℚ × List ℚ) (i : Nat) (r : Option (ℚ × ℚ)) :
    List ℚ × List ℚ :=
  match r with
  | some pv => (st.1.set i pv.1, st.2.set i pv.2)
  | none => st

/-- The sampling for-loop over the list of read outcomes (index i counts
from the given start value, 0 at the call site). -/
def samplingLoop : List ℚ × List ℚ → Nat → List (Option (ℚ × ℚ)) → List ℚ × List ℚ
  | st, _, [] => st
  | st, i, r :: rs => samplingLoop (sampleStep st i r) (i + 1) rs

/-- Embedding of one pass of loop() from the sampling section onwards
(the fan-spinup delay does not touch any modelled state): given the global
sample arrays as left by the previous cycle, the outcome of each of the
ten read attempts (none = read error), and the already-read humidity and
temperature ints, produce the cycle result.  The body has no branch that
skips transmission: after the sampling loop it unconditionally takes both
medians, encodes, assembles the 8-byte payload and calls sendBytes; the
match is none only if a median evaluation itself has no defined value
(out-of-bounds access on an empty array). -/
def loopCycle (p25a p10a : List ℚ) (reads : List (Option (ℚ × ℚ)))
    (hint tint : ℤ) : Option CycleOut :=
  match median (samplingLoop (p25a, p10a) 0 reads).1,
        median (samplingLoop (p25a, p10a) 0 reads).2 with
  | some p25median, some p10median =>
    some { payload := [highByte (toInt16 (roundC (p10median * 100))),
                       lowByte (toInt16 (roundC (p10median * 100))),
                       highByte (toInt16 (roundC (p25median * 100))),
                       lowByte (toInt16 (roundC (p25median * 100))),
                       highByte hint, lowByte hint,
                       highByte tint, lowByte tint],
           p25arr := (samplingLoop (p25a, p10a) 0 reads).1,
           p10arr := (samplingLoop (p25a, p10a) 0 reads).2,
           reachedSleep := true }
  | _, _ => none

/-- The argument passed to delay() in the non-power-down sleep branch:
(1000L * 60 * SLEEP_TIME) - (delay1 + samples * delay2) with
delay1 = 1000 * FAN_SPINUP, samples = 10 and delay2 = 1100, converted to
the unsigned long parameter type of delay(), that is reduced modulo
2^32. -/
def fallbackDelayArg (sleepTime fanSpinup : ℤ) : ℤ :=
  (1000 * 60 * sleepTime - (1000 * fanSpinup + 10 * 1100)) % 4294967296

theorem samplingLoop_length : ∀ (reads : List (Option (ℚ × ℚ)))
    (st : List ℚ × List ℚ) (i : Nat),
    (samplingLoop st i reads).1.length = st.1.length ∧
      (samplingLoop st i reads).2.length = st.2.length := by
  intro reads
  induction reads with
  | nil => intro st i; exact ⟨rfl, rfl⟩
  | cons r rs ih =>
    intro st i
    simp only [samplingLoop]
    rcases (ih (sampleStep st i r) (i + 1)) with ⟨ha, hb⟩
    refine ⟨ha.trans ?_, hb.trans ?_⟩ <;>
      · match r with
        | some pv => simp [sampleStep]
        | none => rfl

theorem samplingLoop_allfail : ∀ (reads : List (Option (ℚ × ℚ)))
    (st : List ℚ × List ℚ) (i : Nat), (∀ r ∈ reads, r = none) →
    samplingLoop st i reads = st := by
  intro reads
  induction reads with
  | nil => intro st i _; rfl
  | cons r rs ih =>
    intro st i hall
    have hr : r = none := hall r (List.mem_cons_self r rs)
    subst hr
    simp only [samplingLoop, sampleStep]
    exact ih st (i + 1) (fun x hx => hall x (List.mem_cons_of_mem none hx))



/-- Evaluation of one cycle on all-zero sample arrays when every read
attempt fails: the stale zeros are aggregated and a payload is still
produced. -/
theorem loopCycle_allfail_zero (hint tint : ℤ) :
    loopCycle (List.replicate 10 0) (List.replicate 10 0)
        (List.replicate 10 none) hint tint =
      some ⟨[0, 0, 0, 0, highByte hint, lowByte hint, highByte tint, lowByte tint],
        List.replicate 10 0, List.replicate 10 0, true⟩ := by
  have hsamp : samplingLoop (List.replicate 10 (0:ℚ), List.replicate 10 (0:ℚ)) 0
      (List.replicate 10 none) = (List.replicate 10 0, List.replicate 10 0) := rfl
  have hmed : median (List.replicate 10 (0:ℚ)) = some 0 := by
    rw [median_eq_spec _ (by simp)]
    norm_num [medianSpec, List.insertionSort, List.orderedInsert, List.replicate]
  unfold loopCycle
  rw [hsamp]
  simp only [hmed]
  norm_num [roundC, toInt16, highByte, lowByte]

/-- Claim C1, counterexample: at iWakeCntr = UINT16_MAX one more interrupt
tick sets the counter to 0, so it does not stay at its maximum. -/
theorem isr_at_max_wraps_to_zero :
    ISR_WDT_vect 65535 = 0 ∧ ISR_WDT_vect 65535 ≠ 65535 := by decide

/-- Claim C1, amended: the wake counter does not saturate; a tick at
UINT16_MAX explicitly resets it to zero (the same value unsigned wraparound
would produce), and below the maximum a tick increments it by one. -/
theorem isr_increment_or_wrap (c : Nat) (hc : c ≤ 65535) :
    ISR_WDT_vect c = if c = 65535 then 0 else c + 1 := by
  unfold ISR_WDT_vect
  by_cases h : c = 65535
  · subst h; simp
  · rw [if_neg (by omega), if_neg h]

/-- Witness for the amended C1 theorem at a concrete counter value. -/
theorem isr_increment_or_wrap_witness : ISR_WDT_vect 7 = 8 := by
  have h := isr_increment_or_wrap 7 (by omega)
  simpa using h

/-- Claim C2, counterexample: a cycle in which all ten read attempts fail
(zero successful PM2.5 reads) still hands an 8-byte payload to sendBytes,
built from the stale array contents. -/
theorem allfail_cycle_still_sends :
    loopCycle (List.replicate 10 0) (List.replicate 10 0)
        (List.replicate 10 none) 0 0 =
      some ⟨[0, 0, 0, 0, 0, 0, 0, 0],
        List.replicate 10 0, List.replicate 10 0, true⟩ := by
  have h := loopCycle_allfail_zero 0 0
  norm_num [highByte, lowByte] at h
  exact h

/-- Claim C2, amended: the loop body contains no guard on read failures;
every cycle whose (always ten-slot) global arrays are non-empty hands a
payload to sendBytes, and control always reaches the sleep section. -/
theorem cycle_always_sends (p25a p10a : List ℚ)
    (reads : List (Option (ℚ × ℚ))) (hint tint : ℤ)
    (h25 : p25a ≠ []) (h10 : p10a ≠ []) :
    (loopCycle p25a p10a reads hint tint).isSome = true ∧
      ∀ c : CycleOut, loopCycle p25a p10a reads hint tint = some c →
        c.reachedSleep = true := by
  obtain ⟨hl1, hl2⟩ := samplingLoop_length reads (p25a, p10a) 0
  have hne1 : (samplingLoop (p25a, p10a) 0 reads).1 ≠ [] := by
    intro he
    rw [he] at hl1
    simp at hl1
    exact h25 (List.length_eq_zero.mp hl1.symm)
  have hne2 : (samplingLoop (p25a, p10a) 0 reads).2 ≠ [] := by
    intro he
    rw [he] at hl2
    simp at hl2
    exact h10 (List.length_eq_zero.mp hl2.symm)
  have hm25 := median_eq_spec _ hne1
  have hm10 := median_eq_spec _ hne2
  constructor
  · unfold loopCycle
    rw [hm25, hm10]
    rfl
  · intro c hc
    unfold loopCycle at hc
    rw [hm25, hm10] at hc
    injection hc with h
    rw [← h]

/-- Witness for the amended C2 theorem at a concrete cycle. -/
theorem cycle_always_sends_witness :
    (loopCycle (List.replicate 10 0) (List.replicate 10 0)
        (List.replicate 10 none) 0 0).isSome = true :=
  (cycle_always_sends (List.replicate 10 0) (List.replicate 10 0)
      (List.replicate 10 none) 0 0 (by simp) (by simp)).1

/-- Claim C3, counterexample: with the global PM2.5 array holding ten stale
values 7 from an earlier cycle and every read of the current cycle failing,
the array handed to aggregation still holds those ten stale entries, not
only values from successful reads of the current cycle (of which there are
none). -/
theorem failed_reads_keep_stale_slots :
    (samplingLoop (List.replicate 10 (7:ℚ), List.replicate 10 (7:ℚ)) 0
        (List.replicate 10 none)).1 = List.replicate 10 (7:ℚ) ∧
      (List.replicate 10 (7:ℚ)).length = 10 ∧
      List.replicate 10 (7:ℚ) ≠ [] :=
  ⟨rfl, rfl, by simp⟩

/-- Claim C3, amended: the sample arrays are fixed-size global buffers; a
successful read overwrites slot i, a failed read leaves the previous
contents of the slot in place, so the array sizes never change (aggregation
always receives the full capacity, with stale values occupying the failed
slots). -/
theorem sampling_fixed_capacity_stale (st : List ℚ × List ℚ) (i : Nat)
    (reads : List (Option (ℚ × ℚ))) :
    ((samplingLoop st i reads).1.length = st.1.length ∧
      (samplingLoop st i reads).2.length = st.2.length) ∧
      ((∀ r ∈ reads, r = none) → samplingLoop st i reads = st) :=
  ⟨samplingLoop_length reads st i, samplingLoop_allfail reads st i⟩

/-- Witness for the amended C3 theorem at a concrete one-slot state. -/
theorem sampling_fixed_capacity_stale_witness :
    (samplingLoop ([(1:ℚ)], [(2:ℚ)]) 0 [none]).1.length = 1 ∧
      samplingLoop ([(1:ℚ)], [(2:ℚ)]) 0 [none] = ([1], [2]) :=
  ⟨(sampling_fixed_capacity_stale ([1], [2]) 0 [none]).1.1,
    (sampling_fixed_capacity_stale ([1], [2]) 0 [none]).2 (by simp)⟩

/-- Claim C4 (code bug in the source): median on an empty sample set does
not fail with a designed empty-input error; it evaluates (m & 1) == 0 with
m = 0, enters the even branch and reads sorted[-1] and sorted[0], both out
of bounds.  In the embedding, where an out-of-bounds read has no defined
value, the whole call evaluates to none: no value (in particular not zero)
is ever defined, but the failure is undefined behaviour, not an
EmptyInputError guard. -/
theorem median_empty_out_of_bounds : median [] = none := by
  rw [median_eq_mid]
  rfl

/-- Claim C5: for every non-empty finite sample multiset, median equals
the result of sorting ascending and applying the even/odd midpoint rule
(the spec-side definition medianSpec), and median is invariant under every
permutation of the samples. -/
theorem median_eq_sort_midpoint_perm (l : List ℚ) (h : l ≠ []) :
    median l = some (medianSpec l) ∧
      ∀ l' : List ℚ, List.Perm l l' → median l = median l' :=
  ⟨median_eq_spec l h, fun l' hp => median_perm l l' hp⟩

/-- Witness for C5 at the concrete sample list from the spec example. -/
theorem median_eq_sort_midpoint_perm_witness :
    median [10, 12, 11, 13, 100] = some (medianSpec [10, 12, 11, 13, 100]) ∧
      medianSpec [10, 12, 11, 13, 100] = 12 :=
  ⟨(median_eq_sort_midpoint_perm [10, 12, 11, 13, 100] (by simp)).1, by decide⟩

/-- Claim C6: every cycle that transmits hands sendBytes a payload of
exactly 8 bytes in the fixed big-endian order PM10 high, PM10 low, PM2.5
high, PM2.5 low, humidity high, humidity low, temperature high,
temperature low; in particular byte 0 is the high byte of the PM10
field. -/
theorem payload_length_layout (p25a p10a : List ℚ)
    (reads : List (Option (ℚ × ℚ))) (hint tint : ℤ) (c : CycleOut)
    (hc : loopCycle p25a p10a reads hint tint = some c) :
    c.payload.length = 8 ∧
      ∃ m25 m10 : ℚ,
        median (samplingLoop (p25a, p10a) 0 reads).1 = some m25 ∧
          median (samplingLoop (p25a, p10a) 0 reads).2 = some m10 ∧
          c.payload = [highByte (toInt16 (roundC (m10 * 100))),
            lowByte (toInt16 (roundC (m10 * 100))),
            highByte (toInt16 (roundC (m25 * 100))),
            lowByte (toInt16 (roundC (m25 * 100))),
            highByte hint, lowByte hint, highByte tint, lowByte tint] ∧
          c.payload.headD 0 = highByte (toInt16 (roundC (m10 * 100))) := by
  unfold loopCycle at hc
  cases hm25 : median (samplingLoop (p25a, p10a) 0 reads).1 with
  | none =>
    rw [hm25] at hc
    cases hm10 : median (samplingLoop (p25a, p10a) 0 reads).2 with
    | none => rw [hm10] at hc; simp at hc
    | some m10 => rw [hm10] at hc; simp at hc
  | some m25 =>
    rw [hm25] at hc
    cases hm10 : median (samplingLoop (p25a, p10a) 0 reads).2 with
    | none => rw [hm10] at hc; simp at hc
    | some m10 =>
      rw [hm10] at hc
      injection hc with h
      subst h
      exact ⟨rfl, m25, m10, rfl, rfl, rfl, rfl⟩

/-- Witness for C6 at a concrete transmitting cycle. -/
theorem payload_length_layout_witness :
    (CycleOut.payload
        ⟨[0, 0, 0, 0, highByte 50, lowByte 50, highByte 21, lowByte 21],
          List.replicate 10 0, List.replicate 10 0, true⟩).length = 8 :=
  (payload_length_layout (List.replicate 10 0) (List.replicate 10 0)
      (List.replicate 10 none) 50 21 _ (loopCycle_allfail_zero 50 21)).1

/-- Claim C7: for every in-range value (magnitude at most 327.67) the
fixed-point encoding is exactly round(x * 100) half away from zero with no
int16 wrap, so the symmetric decoder recovers x rounded to two decimals;
and the spec example holds: samples [10, 20] have median 15, field 1500,
bytes 0x05 and 0xDC. -/
theorem encode_roundtrip :
    (∀ x : ℚ, |x| ≤ 327.67 →
        encode x = roundC (x * 100) ∧ decode (encode x) = round2 x) ∧
      median [10, 20] = some 15 ∧ encode 15 = 1500 ∧
      highByte 1500 = 5 ∧ lowByte 1500 = 220 := by
  refine ⟨?_, ?_, by norm_num [encode, roundC, toInt16], by decide, by decide⟩
  · intro x hx
    rw [abs_le] at hx
    have hb : -32768 ≤ roundC (x * 100) ∧ roundC (x * 100) ≤ 32767 := by
      unfold roundC
      split
      · constructor
        · rename_i hpos
          have h0 : (0:ℤ) ≤ ⌊x * 100 + 1 / 2⌋ :=
            Int.le_floor.mpr (by push_cast; linarith)
          omega
        · have hlt : ⌊x * 100 + 1 / 2⌋ < 32768 :=
            Int.floor_lt.mpr (by push_cast; linarith [hx.2])
          omega
      · rename_i hneg
        push_neg at hneg
        constructor
        · have hgt : (-32769:ℤ) < ⌈x * 100 - 1 / 2⌉ :=
            Int.lt_ceil.mpr (by push_cast; linarith [hx.1])
          omega
        · have hle : ⌈x * 100 - 1 / 2⌉ ≤ 0 :=
            Int.ceil_le.mpr (by push_cast; linarith)
          omega
    have hval : encode x = roundC (x * 100) := by
      unfold encode toInt16
      rw [Int.emod_eq_of_lt (by omega) (by omega)]
      ring
    exact ⟨hval, by rw [decode, hval]; rfl⟩
  · rw [median_eq_spec _ (by simp)]
    norm_num [medianSpec, List.insertionSort, List.orderedInsert]

/-- Witness for C7 at the concrete in-range value 15. -/
theorem encode_roundtrip_witness :
    |(15:ℚ)| ≤ 327.67 ∧ decode (encode 15) = round2 15 :=
  ⟨by norm_num, (encode_roundtrip.1 15 (by norm_num)).2⟩

/-- Claim C8, counterexample: with SLEEP_TIME = 1 minute and
FAN_SPINUP = 60 seconds, T - W - M = 60000 - 60000 - 11000 = -11000 is
negative, and the value passed to delay() is the wrapped unsigned
4294956296 rather than max(0, T - W - M) = 0. -/
theorem fallback_delay_wraps_negative :
    fallbackDelayArg 1 60 = 4294956296 ∧
      fallbackDelayArg 1 60 ≠ max 0 (1000 * 60 * 1 - (1000 * 60 + 10 * 1100)) := by
  constructor <;> decide

/-- Claim C8, amended: the fallback delay equals T - W - M reduced modulo
2^32; whenever T - W - M is non-negative (and within the unsigned long
range) it equals max(0, T - W - M), but a negative difference wraps around
instead of clamping to zero. -/
theorem fallback_delay_in_range (sleepTime fanSpinup : ℤ)
    (h0 : 0 ≤ 1000 * 60 * sleepTime - (1000 * fanSpinup + 10 * 1100))
    (h1 : 1000 * 60 * sleepTime - (1000 * fanSpinup + 10 * 1100) < 4294967296) :
    fallbackDelayArg sleepTime fanSpinup =
      max 0 (1000 * 60 * sleepTime - (1000 * fanSpinup + 10 * 1100)) := by
  unfold fallbackDelayArg
  rw [Int.emod_eq_of_lt h0 h1, max_eq_right h0]

/-- Witness for the amended C8 theorem at SLEEP_TIME = 2, FAN_SPINUP = 60. -/
theorem fallback_delay_in_range_witness :
    fallbackDelayArg 2 60 = max 0 (1000 * 60 * 2 - (1000 * 60 + 10 * 1100)) :=
  fallback_delay_in_range 2 60 (by decide) (by decide)

/-- Claim C9: median(samples, m) sorts a local copy and returns the
caller's samples array unchanged: aggregating one channel never mutates
the stored sample set. -/
theorem median_preserves_input (samples : List ℚ) :
    (medianCall samples).2 = samples ∧
      (medianCall samples).1 = median samples := by
  constructor
  · unfold medianCall copyPhase
    exact foldl_copyStep_fst _ _
  · rfl

/-- Claim C10: the bubbleSort outer do-while loop terminates on every
finite input: a budget of invCount A + 1 passes always suffices to reach
the exit condition n <= 1, and the fuel-limited loop then agrees with the
total one. -/
theorem bubbleSort_terminates (A : List ℚ) :
    bsLoopFuel (invCount A + 1) A = some (bubbleSort A) :=
  bsLoopFuel_eq_aux (invCount A) A le_rfl

end TtnUlmDust


